import Mathlib

/-!
Verification of the image-reconstructor-generator core
(src/image_rebuilder.py) against its natural-language specification.

The Python source is shallowly embedded: byte streams become `List Nat`
(one `Nat` per byte), paths become `String` or `List Char`, fallible
operations return `Option`, and the MurmurHash3 block hash is an
arbitrary parameter `hash : List Nat → Nat` (the code only ever compares
hash values for equality, so every theorem below holds for every hash
function; concrete evaluations instantiate it).
-/

namespace ImageRebuilder

/-! ## Shell escaping (escape_for_shell_display, src/image_rebuilder.py:25-65) -/

/-- The single-quote character `'` (ASCII 39). -/
def sq : Char := Char.ofNat 39

/-- The double-quote character (ASCII 34). -/
def dq : Char := Char.ofNat 34

/-- The five-character replacement `str.replace` substitutes for each single
quote in `escape_for_shell_display`: end quote, double-quoted quote, start
quote. -/
def quoteEscapeSeq : List Char := [sq, dq, sq, dq, sq]

/-- Per-character action of `path.replace(sq, quoteEscapeSeq)`: a single-char
`old` makes `str.replace` a character-wise substitution. -/
def escChar (c : Char) : List Char := if c = sq then quoteEscapeSeq else [c]

/-- Embedding of `escape_for_shell_display` (src/image_rebuilder.py:25-65) on
the path's character sequence: empty paths give a quoted empty string, paths
containing a single quote have every quote replaced before wrapping, all other
paths are wrapped verbatim in single quotes. -/
def escapeForShellDisplay (path : List Char) : List Char :=
  if path = [] then [sq, sq]
  else if sq ∈ path then sq :: (path.flatMap escChar ++ [sq])
  else sq :: (path ++ [sq])

/-- Reader mode of the POSIX sh word evaluator: outside quotes, inside single
quotes, inside double quotes. -/
inductive ShMode where
  | plain
  | single
  | double
  deriving DecidableEq

/-- Modelled from the spec: POSIX `sh` word evaluation (the "Shell-quoting
rule" of the spec), which is external to the repository.  Inside single quotes
every character is literal until the closing quote; inside double quotes a
single quote is literal while dollar, backtick and backslash would be
interpreted by the shell (the model rejects them with `none`, and it likewise
rejects any character outside quotes), so a `some` result is exactly the
literal word POSIX sh would produce. -/
def shEvalWord : ShMode → List Char → Option (List Char)
  | .plain, [] => some []
  | .single, [] => none
  | .double, [] => none
  | .plain, c :: r =>
    if c = sq then shEvalWord .single r
    else if c = dq then shEvalWord .double r
    else none
  | .single, c :: r =>
    if c = sq then shEvalWord .plain r
    else (shEvalWord .single r).map (c :: ·)
  | .double, c :: r =>
    if c = dq then shEvalWord .plain r
    else if c = Char.ofNat 36 ∨ c = Char.ofNat 96 ∨ c = Char.ofNat 92 then none
    else (shEvalWord .double r).map (c :: ·)

theorem flatMap_escChar_of_no_quote {path : List Char} (h : sq ∉ path) :
    path.flatMap escChar = path := by
  induction path with
  | nil => rfl
  | cons c p ih =>
    simp only [List.mem_cons, not_or] at h
    simp [escChar, Ne.symm h.1, ih h.2]

/-- On every path, `escape_for_shell_display` produces exactly the single
quote, the character-wise replacement of the path, and a closing single
quote. -/
theorem escapeForShellDisplay_eq (path : List Char) :
    escapeForShellDisplay path = sq :: (path.flatMap escChar ++ [sq]) := by
  unfold escapeForShellDisplay
  by_cases h0 : path = []
  · subst h0; rfl
  · by_cases hq : sq ∈ path
    · simp [h0, hq]
    · simp [h0, hq, flatMap_escChar_of_no_quote hq]

theorem shEvalWord_single_escaped (path : List Char) :
    shEvalWord ShMode.single (path.flatMap escChar ++ [sq]) = some path := by
  induction path with
  | nil => simp [shEvalWord]
  | cons c p ih =>
    by_cases hc : c = sq
    · subst hc
      simp only [List.flatMap_cons, escChar, if_pos rfl, quoteEscapeSeq]
      have h1 : dq ≠ sq := by decide
      have h2 : ¬ (sq = Char.ofNat 36 ∨ sq = Char.ofNat 96 ∨ sq = Char.ofNat 92) := by decide
      have h3 : sq ≠ dq := by decide
      simp [shEvalWord, h1, h2, h3, ih]
    · simp only [List.flatMap_cons, escChar, if_neg hc]
      simp [shEvalWord, hc, ih]

/-- C5 (amended).  `escape_for_shell_display` wraps the path in single quotes
and turns each single quote into the FIVE-character sequence
quote/double-quote/quote/double-quote/quote, preserving every other character
literally, and evaluating the escaped word under POSIX sh (as modelled by
`shEvalWord`) yields exactly the original path. -/
theorem shell_quoting_round_trip (path : List Char) :
    escapeForShellDisplay path = sq :: (path.flatMap escChar ++ [sq]) ∧
    quoteEscapeSeq.length = 5 ∧
    shEvalWord ShMode.plain (escapeForShellDisplay path) = some path := by
  refine ⟨escapeForShellDisplay_eq path, rfl, ?_⟩
  rw [escapeForShellDisplay_eq path]
  simp [shEvalWord, shEvalWord_single_escaped]

/-- C5 counterexample.  The claim says each single quote becomes a
FOUR-character sequence, which for the one-character path consisting of a
single quote would give an escaped string of length 1 + 4 + 1 = 6; the code
produces the five-character sequence `'"'"'`, hence length 7. -/
theorem shell_quoting_four_char_false :
    (escapeForShellDisplay [sq]).length = 7 ∧
    (escapeForShellDisplay [sq]).length ≠ 1 + 4 + 1 := by decide

/-- C10.  `escape_for_shell_display` applied to the empty string returns the
two-character string of two single quotes, not empty output. -/
theorem escape_empty_path :
    escapeForShellDisplay [] = [sq, sq] ∧ (escapeForShellDisplay []).length = 2 := by
  decide

/-! ## Script packager (generate_shell_wrapper, src/image_rebuilder.py:1180-1286) -/

/-- Bytes of an ASCII string (all fixed wrapper text is ASCII, so its UTF-8
bytes coincide with the character code points). -/
def strBytes (s : String) : List Nat := s.data.map Char.toNat

/-- First wrapper segment: the shebang line and `set -e`. -/
def wrapperPrologue : List Nat := strBytes ("#!/bin/sh\nset -e\n")

/-- The fixed-width placeholder: `data_offset=` followed by twenty ASCII zero
digits (32 bytes in total). -/
def placeholderBytes : List Nat := strBytes ("data_offset=00000000000000000000")

/-- Wrapper text between the placeholder and the embedded script. -/
def wrapperMid : List Nat := strBytes ("\nscript_file=\"$0\"\n\n# Embedded reconstruction script\n")

/-- Wrapper text after the embedded script. -/
def wrapperEpilogue : List Nat := strBytes ("exit 0\n\n")

/-- Step 1 of `generate_shell_wrapper`: the wrapper bytes before patching —
prologue, placeholder, fixed middle text, the embedded script, epilogue. -/
def composeWrapper (script : List Nat) : List Nat :=
  wrapperPrologue ++ placeholderBytes ++ wrapperMid ++ script ++ wrapperEpilogue

/-- Decimal digit bytes of Python's `str(n)`. -/
def decimalDigits (n : Nat) : List Nat := (Nat.toDigits 10 n).map Char.toNat

/-- `str(n).ljust(20)`: pad on the right with spaces (byte 32) to width 20. -/
def ljustTwenty (l : List Nat) : List Nat := l ++ List.replicate (20 - l.length) 32

/-- The replacement bytes `b'data_offset=' + str(data_offset).ljust(20).encode()`. -/
def offsetReplacement (dataOffset : Nat) : List Nat :=
  strBytes ("data_offset=") ++ ljustTwenty (decimalDigits dataOffset)

/-- `bytes.replace(old, repl, 1)` for nonempty `old`: substitute the leftmost
occurrence of `old`, leaving every byte before and after it untouched. -/
def bytesReplaceFirst (old repl : List Nat) : List Nat → List Nat
  | [] => []
  | a :: s =>
    if old <+: (a :: s) then repl ++ (a :: s).drop old.length
    else a :: bytesReplaceFirst old repl s

/-- Steps 2-3 of `generate_shell_wrapper`: measure `data_offset` as the length
of the composed wrapper, fail (`ValueError`, modelled as `none`) if the
placeholder is absent, otherwise replace its first occurrence. -/
def patchPlaceholder (w : List Nat) : Option (List Nat) :=
  if placeholderBytes <:+: w then
    some (bytesReplaceFirst placeholderBytes (offsetReplacement w.length) w)
  else none

/-- The wrapper bytes `generate_shell_wrapper` writes before the attachment
data: compose, measure, check, patch. -/
def generateShellWrapperBytes (script : List Nat) : Option (List Nat) :=
  patchPlaceholder (composeWrapper script)

theorem placeholderBytes_cons :
    placeholderBytes = 100 :: strBytes ("ata_offset=00000000000000000000") := by decide

theorem wrapperPrologue_no_d : ∀ x ∈ wrapperPrologue, x ≠ 100 := by decide

theorem bytesReplaceFirst_first_occurrence {p repl b : List Nat} :
    ∀ a : List Nat, (∀ x ∈ a, x ≠ 100) →
      bytesReplaceFirst (100 :: p) repl (a ++ ((100 :: p) ++ b)) = a ++ (repl ++ b) := by
  intro a
  induction a with
  | nil =>
    intro _
    have hpre : (100 :: p) <+: (100 :: (p ++ b)) := by
      rw [← List.cons_append]
      exact List.prefix_append _ _
    simp only [List.nil_append, List.cons_append, bytesReplaceFirst, List.append_eq, if_pos hpre,
      List.length_cons, List.drop_succ_cons, List.drop_left]
  | cons a0 t ih =>
    intro h
    have ha0 : a0 ≠ 100 := h a0 (List.mem_cons_self a0 t)
    have hnp : ¬ ((100 :: p) <+: (a0 :: (t ++ ((100 :: p) ++ b)))) := by
      rw [List.cons_prefix_cons]
      rintro ⟨h1, -⟩
      exact ha0 h1.symm
    calc bytesReplaceFirst (100 :: p) repl ((a0 :: t) ++ ((100 :: p) ++ b))
        = a0 :: bytesReplaceFirst (100 :: p) repl (t ++ ((100 :: p) ++ b)) := by
          rw [List.cons_append, bytesReplaceFirst, if_neg hnp]
      _ = (a0 :: t) ++ (repl ++ b) := by
          rw [ih (fun x hx => h x (List.mem_cons_of_mem _ hx))]
          simp

theorem offsetReplacement_length {n : Nat} (hfit : (decimalDigits n).length ≤ 20) :
    (offsetReplacement n).length = 32 := by
  simp only [offsetReplacement, ljustTwenty, List.length_append, List.length_replicate]
  have h12 : (strBytes ("data_offset=")).length = 12 := by decide
  omega

/-- C4.  Composing the wrapper and patching it replaces exactly the first
occurrence of the placeholder (which sits in the header, since the prologue
contains no byte `d`) with `data_offset=` plus the measured length space-padded
to width 20; every byte of the rest of the wrapper — including any later
occurrence of the placeholder inside the program body — is unchanged, the total
byte length is preserved, and patching fails on any byte string lacking the
placeholder.  The hypothesis states that the measured length fits in the
20-digit field. -/
theorem wrapper_placeholder_patch (script : List Nat)
    (hfit : (decimalDigits (composeWrapper script).length).length ≤ 20) :
    generateShellWrapperBytes script =
      some (wrapperPrologue ++ (offsetReplacement (composeWrapper script).length ++
        (wrapperMid ++ script ++ wrapperEpilogue))) ∧
    (wrapperPrologue ++ (offsetReplacement (composeWrapper script).length ++
        (wrapperMid ++ script ++ wrapperEpilogue))).length = (composeWrapper script).length ∧
    (offsetReplacement (composeWrapper script).length).length = placeholderBytes.length ∧
    (∀ w : List Nat, ¬ (placeholderBytes <:+: w) → patchPlaceholder w = none) := by
  have hsplit : composeWrapper script =
      wrapperPrologue ++ (placeholderBytes ++ (wrapperMid ++ script ++ wrapperEpilogue)) := by
    simp [composeWrapper]
  have hinf : placeholderBytes <:+: composeWrapper script := by
    rw [hsplit]
    exact ⟨wrapperPrologue, wrapperMid ++ script ++ wrapperEpilogue, by simp⟩
  have hlen32 := offsetReplacement_length hfit
  have hph32 : placeholderBytes.length = 32 := by decide
  have key : ∀ R : List Nat, bytesReplaceFirst placeholderBytes R (composeWrapper script) =
      wrapperPrologue ++ (R ++ (wrapperMid ++ script ++ wrapperEpilogue)) := by
    intro R
    rw [hsplit, placeholderBytes_cons]
    exact bytesReplaceFirst_first_occurrence wrapperPrologue wrapperPrologue_no_d
  refine ⟨?_, ?_, by omega, ?_⟩
  · unfold generateShellWrapperBytes patchPlaceholder
    rw [if_pos hinf, key]
  · rw [hsplit] at hlen32 ⊢
    simp only [List.length_append] at hlen32 ⊢
    omega
  · intro w hw
    unfold patchPlaceholder
    rw [if_neg hw]

/-- Witness for C4 at the empty program body. -/
theorem wrapper_placeholder_patch_witness :
    (decimalDigits (composeWrapper []).length).length ≤ 20 ∧
    generateShellWrapperBytes [] =
      some (wrapperPrologue ++ (offsetReplacement (composeWrapper []).length ++
        (wrapperMid ++ [] ++ wrapperEpilogue))) :=
  ⟨by decide, (wrapper_placeholder_patch [] (by decide)).1⟩

/-! ## Offset mapper (OffsetMapper, src/image_rebuilder.py:68-120) -/

/-- One preprocessed segment of `OffsetMapper`: image start, image end
(exclusive), and the cumulative offset of the segment's bytes within the
concatenated embedded data. -/
structure Segment where
  segStart : Nat
  segEnd : Nat
  cum : Nat
  deriving DecidableEq

/-- `OffsetMapper.__init__`: turn the image ranges into segments carrying
cumulative concatenated offsets. -/
def mkSegments : List (Nat × Nat) → Nat → List Segment
  | [], _ => []
  | (s, e) :: rest, acc => ⟨s, e, acc⟩ :: mkSegments rest (acc + (e - s))

/-- Linear model of `bisect.bisect_right`: on the sorted start-offset lists
`OffsetMapper` builds, Python's binary search returns the unique insertion
point, which this scan computes. -/
def bisectRight (a : List Nat) (x : Nat) : Nat :=
  match a with
  | [] => 0
  | s :: rest => if x < s then 0 else bisectRight rest x + 1

/-- `OffsetMapper.map_offset`: locate the candidate segment by bisection, fail
(`ValueError`, modelled as `none`) when the index is out of range or the
offset misses the candidate segment, else return the concatenated offset. -/
def mapOffset (segs : List Segment) (off : Nat) : Option Nat :=
  let idx := bisectRight (segs.map Segment.segStart) off
  if idx = 0 then none
  else
    match segs[idx - 1]? with
    | none => none
    | some sg =>
      if off < sg.segStart ∨ sg.segEnd ≤ off then none
      else some (sg.cum + (off - sg.segStart))

/-- The image ranges taken from a plan are chained: each starts at or after
`low`, ends at or after its start, and later ranges start at or after earlier
ends. -/
def rangesChainB (low : Nat) : List (Nat × Nat) → Bool
  | [] => true
  | (s, e) :: rest => (decide (low ≤ s) && decide (s ≤ e)) && rangesChainB e rest

/-- Chain property carried over to preprocessed segments. -/
def segsChainB (low : Nat) : List Segment → Bool
  | [] => true
  | sg :: rest =>
    (decide (low ≤ sg.segStart) && decide (sg.segStart ≤ sg.segEnd)) && segsChainB sg.segEnd rest

theorem mkSegments_chain : ∀ (ranges : List (Nat × Nat)) (low acc : Nat),
    rangesChainB low ranges = true → segsChainB low (mkSegments ranges acc) = true := by
  intro ranges
  induction ranges with
  | nil => intro low acc _; rfl
  | cons r rest ih =>
    intro low acc h
    obtain ⟨s, e⟩ := r
    simp only [rangesChainB, Bool.and_eq_true, decide_eq_true_eq] at h
    simp only [mkSegments, segsChainB, Bool.and_eq_true, decide_eq_true_eq]
    exact ⟨⟨h.1.1, h.1.2⟩, ih e _ h.2⟩

theorem segsChainB_start_le : ∀ (segs : List Segment) (low : Nat),
    segsChainB low segs = true → ∀ sg ∈ segs, low ≤ sg.segStart := by
  intro segs
  induction segs with
  | nil => intro low _ sg hsg; cases hsg
  | cons a rest ih =>
    intro low h sg hsg
    simp only [segsChainB, Bool.and_eq_true, decide_eq_true_eq] at h
    rcases List.mem_cons.mp hsg with h1 | h1
    · subst h1; exact h.1.1
    · have := ih a.segEnd h.2 sg h1
      omega

theorem mapOffset_cons_lt {sg : Segment} {rest : List Segment} {off : Nat}
    (h : off < sg.segStart) : mapOffset (sg :: rest) off = none := by
  simp [mapOffset, bisectRight, h]

theorem mapOffset_cons_here {sg : Segment} {rest : List Segment} {off : Nat}
    (h1 : ¬ off < sg.segStart) (h2 : bisectRight (rest.map Segment.segStart) off = 0) :
    mapOffset (sg :: rest) off =
      (if off < sg.segStart ∨ sg.segEnd ≤ off then none
       else some (sg.cum + (off - sg.segStart))) := by
  simp [mapOffset, bisectRight, h1, h2]

theorem mapOffset_cons_there {sg : Segment} {rest : List Segment} {off k : Nat}
    (h1 : ¬ off < sg.segStart) (h2 : bisectRight (rest.map Segment.segStart) off = k + 1) :
    mapOffset (sg :: rest) off = mapOffset rest off := by
  simp only [mapOffset, List.map_cons, bisectRight, if_neg h1, h2]
  rw [if_neg (by omega : ¬ k + 1 + 1 = 0), if_neg (by omega : ¬ k + 1 = 0)]
  have e1 : k + 1 + 1 - 1 = k + 1 := by omega
  have e2 : k + 1 - 1 = k := by omega
  rw [e1, e2, List.getElem?_cons_succ]

theorem mapOffset_spec_aux : ∀ (segs : List Segment) (low off : Nat),
    segsChainB low segs = true →
    ((∀ sg ∈ segs, sg.segStart ≤ off → off < sg.segEnd →
        mapOffset segs off = some (sg.cum + (off - sg.segStart))) ∧
     ((∀ sg ∈ segs, ¬ (sg.segStart ≤ off ∧ off < sg.segEnd)) → mapOffset segs off = none)) := by
  intro segs
  induction segs with
  | nil =>
    intro low off _
    exact ⟨fun sg hsg => absurd hsg (List.not_mem_nil sg), fun _ => rfl⟩
  | cons a rest ih =>
    intro low off hch
    simp only [segsChainB, Bool.and_eq_true, decide_eq_true_eq] at hch
    obtain ⟨⟨hlow, hse⟩, hchrest⟩ := hch
    by_cases hlt : off < a.segStart
    · have hnone : mapOffset (a :: rest) off = none := mapOffset_cons_lt hlt
      refine ⟨?_, fun _ => hnone⟩
      intro sg hsg hs he
      rcases List.mem_cons.mp hsg with h1 | h1
      · subst h1; omega
      · have := segsChainB_start_le rest a.segEnd hchrest sg h1
        omega
    · cases hk : bisectRight (rest.map Segment.segStart) off with
      | zero =>
        have heq := mapOffset_cons_here hlt hk
        have hrest_gt : ∀ sg ∈ rest, off < sg.segStart := by
          intro sg hsg
          cases rest with
          | nil => cases hsg
          | cons b rbs =>
            simp only [List.map_cons, bisectRight] at hk
            by_cases hb : off < b.segStart
            · simp only [segsChainB, Bool.and_eq_true, decide_eq_true_eq] at hchrest
              rcases List.mem_cons.mp hsg with h1 | h1
              · subst h1; exact hb
              · have := segsChainB_start_le rbs b.segEnd hchrest.2 sg h1
                omega
            · rw [if_neg hb] at hk
              omega
        constructor
        · intro sg hsg hs he
          rcases List.mem_cons.mp hsg with h1 | h1
          · subst h1
            rw [heq, if_neg (by omega)]
          · have := hrest_gt sg h1
            omega
        · intro hnone
          rw [heq]
          have := hnone a (List.mem_cons_self a rest)
          rw [if_pos (by omega)]
      | succ k =>
        have heq := mapOffset_cons_there hlt hk
        have hagt : a.segEnd ≤ off := by
          cases rest with
          | nil => simp [bisectRight] at hk
          | cons b rbs =>
            simp only [List.map_cons, bisectRight] at hk
            by_cases hb : off < b.segStart
            · rw [if_pos hb] at hk
              omega
            · simp only [segsChainB, Bool.and_eq_true, decide_eq_true_eq] at hchrest
              omega
        obtain ⟨ihs, ihn⟩ := ih a.segEnd off hchrest
        constructor
        · intro sg hsg hs he
          rcases List.mem_cons.mp hsg with h1 | h1
          · subst h1; omega
          · rw [heq]
            exact ihs sg h1 hs he
        · intro hnone
          rw [heq]
          exact ihn (fun sg hsg => hnone sg (List.mem_cons_of_mem _ hsg))

/-- C6.  For the segment list `OffsetMapper.__init__` builds from the plan's
IMAGE ranges in appearance order (which are chained), `map_offset` returns
`cumulative_offset + (image_offset − image_start)` of the segment satisfying
`image_start ≤ image_offset < image_end` whenever such a segment exists, and
fails (`ValueError`, modelled as `none`) for every offset lying in no
segment. -/
theorem offset_mapper_spec (ranges : List (Nat × Nat)) (off : Nat)
    (hch : rangesChainB 0 ranges = true) :
    (∀ sg ∈ mkSegments ranges 0, sg.segStart ≤ off → off < sg.segEnd →
        mapOffset (mkSegments ranges 0) off = some (sg.cum + (off - sg.segStart))) ∧
    ((∀ sg ∈ mkSegments ranges 0, ¬ (sg.segStart ≤ off ∧ off < sg.segEnd)) →
        mapOffset (mkSegments ranges 0) off = none) :=
  mapOffset_spec_aux (mkSegments ranges 0) 0 off (mkSegments_chain ranges 0 0 hch)

/-- Witness for C6 on the ranges (2,5),(7,9): offset 8 lies in the second
segment (cumulative offset 3), offset 6 lies in no segment. -/
theorem offset_mapper_spec_witness :
    rangesChainB 0 [(2, 5), (7, 9)] = true ∧
    mapOffset (mkSegments [(2, 5), (7, 9)] 0) 8 = some 4 ∧
    mapOffset (mkSegments [(2, 5), (7, 9)] 0) 6 = none :=
  ⟨by decide,
   (offset_mapper_spec [(2, 5), (7, 9)] 8 (by decide)).1 ⟨7, 9, 3⟩ (by decide) (by decide)
     (by decide),
   (offset_mapper_spec [(2, 5), (7, 9)] 6 (by decide)).2 (by decide)⟩

/-! ## Reconstruction planner (generate_reconstruction_sequence,
src/image_rebuilder.py:1091-1177) -/

/-- A plan entry's source: the image itself or a named input file. -/
inductive Src where
  | image : Src
  | file : String → Src
  deriving DecidableEq

/-- One record of the reconstruction sequence: source, start offset and end
offset (exclusive). -/
structure PlanEntry where
  src : Src
  start : Nat
  stop : Nat
  deriving DecidableEq

/-- One raw match tuple as accumulated in `ImageProcessor.matches`: file path,
file byte range, image byte range. -/
structure PMatch where
  path : String
  fileStart : Nat
  fileEnd : Nat
  imageStart : Nat
  imageEnd : Nat
  deriving DecidableEq

/-- The planner's sort order `key=lambda m: (m[3], -m[4])`: image start
ascending, then image end descending. -/
def matchKeyLE (a b : PMatch) : Bool :=
  decide (a.imageStart < b.imageStart) ||
    (decide (a.imageStart = b.imageStart) && decide (b.imageEnd ≤ a.imageEnd))

/-- Insert into a sorted list, placing `a` before the first element it is
less-or-equal to; ties keep the incoming (originally earlier) element first,
making the sort below stable. -/
def stableInsert {α : Type} (le : α → α → Bool) (a : α) : List α → List α
  | [] => [a]
  | b :: l => if le a b || !le b a then a :: b :: l else b :: stableInsert le a l

/-- Stable sort wrt `le`.  Python's `sorted` is a stable sort by the same key
order, and a stable sort wrt a total preorder is unique, so this computes
pointwise the list `sorted(matches, key=lambda m: (m[3], -m[4]))` returns. -/
def stableSort {α : Type} (le : α → α → Bool) : List α → List α
  | [] => []
  | a :: l => stableInsert le a (stableSort le l)

/-- The sweep-and-trim loop of `generate_reconstruction_sequence`: discard
matches fully covered by `lastEnd`, trim partially overlapped matches by
advancing both file and image start symmetrically, and advance `lastEnd`. -/
def dedupMatches : List PMatch → Nat → List PMatch
  | [], _ => []
  | m :: rest, lastEnd =>
    if m.imageEnd ≤ lastEnd then dedupMatches rest lastEnd
    else if m.imageStart < lastEnd then
      ⟨m.path, m.fileStart + (lastEnd - m.imageStart), m.fileEnd,
        m.imageStart + (lastEnd - m.imageStart), m.imageEnd⟩ :: dedupMatches rest m.imageEnd
    else m :: dedupMatches rest m.imageEnd

/-- The stitching loop: an IMAGE entry for the gap before each kept match,
the match's file range, and a final IMAGE entry for any remaining tail. -/
def stitchPlan (imageSize : Nat) : List PMatch → Nat → List PlanEntry
  | [], pos => if pos < imageSize then [⟨Src.image, pos, imageSize⟩] else []
  | m :: rest, pos =>
    (if pos < m.imageStart then [⟨Src.image, pos, m.imageStart⟩] else []) ++
      (⟨Src.file m.path, m.fileStart, m.fileEnd⟩ :: stitchPlan imageSize rest m.imageEnd)

/-- `generate_reconstruction_sequence` (src/image_rebuilder.py:1091-1177). -/
def generateReconstructionSequence (ms : List PMatch) (imageSize : Nat) : List PlanEntry :=
  if ms = [] then [⟨Src.image, 0, imageSize⟩]
  else stitchPlan imageSize (dedupMatches (stableSort matchKeyLE ms) 0) 0

/-- Sum of a plan's entry lengths. -/
def planSum (plan : List PlanEntry) : Nat := (plan.map (fun en => en.stop - en.start)).sum

/-- Whether a plan entry draws from the image. -/
def isImageEntry (en : PlanEntry) : Bool :=
  match en.src with
  | Src.image => true
  | Src.file _ => false

/-- No two consecutive entries both draw from the image. -/
def noConsecImage : List PlanEntry → Bool
  | a :: b :: rest => (!(isImageEntry a && isImageEntry b)) && noConsecImage (b :: rest)
  | _ => true

/-- The arithmetic RawMatch invariants the planner claims assume: nonempty
file and image ranges of equal length (stated additively to avoid truncated
subtraction). -/
def matchInv (m : PMatch) : Bool :=
  decide (m.fileStart < m.fileEnd) && decide (m.imageStart < m.imageEnd) &&
    decide (m.fileEnd + m.imageStart = m.imageEnd + m.fileStart)

/-- The kept matches form a chain starting at `low`: each image range is
nonempty, begins at or after the previous end, and the length invariant is
preserved. -/
def keptChain (low : Nat) : List PMatch → Prop
  | [] => True
  | m :: rest =>
    low ≤ m.imageStart ∧ m.imageStart < m.imageEnd ∧
      m.fileEnd + m.imageStart = m.imageEnd + m.fileStart ∧ keptChain m.imageEnd rest

theorem stableInsert_perm {α : Type} (le : α → α → Bool) (a : α) :
    ∀ l : List α, List.Perm (stableInsert le a l) (a :: l) := by
  intro l
  induction l with
  | nil => exact List.Perm.refl _
  | cons b t ih =>
    by_cases h : (le a b || !le b a) = true
    · rw [stableInsert, if_pos h]
    · rw [stableInsert, if_neg h]
      exact List.Perm.trans (List.Perm.cons b ih) (List.Perm.swap a b t)

theorem stableSort_perm {α : Type} (le : α → α → Bool) : ∀ l : List α, List.Perm (stableSort le l) l := by
  intro l
  induction l with
  | nil => exact List.Perm.refl _
  | cons a t ih =>
    exact List.Perm.trans (stableInsert_perm le a (stableSort le t)) (List.Perm.cons a ih)

theorem stableInsert_pairwise {α : Type} (le : α → α → Bool)
    (htot : ∀ x y, (le x y || le y x) = true)
    (htrans : ∀ x y z, le x y = true → le y z = true → le x z = true) (a : α) :
    ∀ l : List α, l.Pairwise (fun x y => le x y = true) →
      (stableInsert le a l).Pairwise (fun x y => le x y = true) := by
  intro l
  induction l with
  | nil => intro _; exact List.pairwise_singleton _ a
  | cons b t ih =>
    intro hp
    rw [List.pairwise_cons] at hp
    obtain ⟨hb, ht⟩ := hp
    by_cases h : (le a b || !le b a) = true
    · rw [stableInsert, if_pos h]
      have hab : le a b = true := by
        rcases Bool.or_eq_true_iff.mp h with h1 | h1
        · exact h1
        · rcases Bool.or_eq_true_iff.mp (htot a b) with h2 | h2
          · exact h2
          · rw [h2] at h1
            simp at h1
      rw [List.pairwise_cons]
      refine ⟨?_, List.pairwise_cons.mpr ⟨hb, ht⟩⟩
      intro x hx
      rcases List.mem_cons.mp hx with h1 | h1
      · subst h1; exact hab
      · exact htrans a b x hab (hb x h1)
    · rw [stableInsert, if_neg h]
      have hba : le b a = true := by
        cases hq : le b a
        · rw [Bool.or_eq_true, not_or] at h
          exact absurd (by rw [hq]; rfl) h.2
        · rfl
      rw [List.pairwise_cons]
      constructor
      · intro x hx
        rcases List.mem_cons.mp ((stableInsert_perm le a t).mem_iff.mp hx) with h1 | h1
        · subst h1; exact hba
        · exact hb x h1
      · exact ih ht

theorem stableSort_pairwise {α : Type} (le : α → α → Bool)
    (htot : ∀ x y, (le x y || le y x) = true)
    (htrans : ∀ x y z, le x y = true → le y z = true → le x z = true) :
    ∀ l : List α, (stableSort le l).Pairwise (fun x y => le x y = true) := by
  intro l
  induction l with
  | nil => exact List.Pairwise.nil
  | cons a t ih => exact stableInsert_pairwise le htot htrans a _ ih

theorem matchKeyLE_total (a b : PMatch) : (matchKeyLE a b || matchKeyLE b a) = true := by
  simp only [matchKeyLE, Bool.or_eq_true, Bool.and_eq_true, decide_eq_true_eq]
  omega

theorem matchKeyLE_trans (a b c : PMatch) :
    matchKeyLE a b = true → matchKeyLE b c = true → matchKeyLE a c = true := by
  simp only [matchKeyLE, Bool.or_eq_true, Bool.and_eq_true, decide_eq_true_eq]
  omega

/-- Strict version of the planner's sort-key order. -/
def matchKeyLT (a b : PMatch) : Prop :=
  a.imageStart < b.imageStart ∨ (a.imageStart = b.imageStart ∧ b.imageEnd < a.imageEnd)

theorem stableSort_eq_of_perm (ms1 ms2 : List PMatch) (hperm : List.Perm ms1 ms2)
    (hdist : ms1.Pairwise
      (fun a b => ¬ (a.imageStart = b.imageStart ∧ a.imageEnd = b.imageEnd))) :
    stableSort matchKeyLE ms1 = stableSort matchKeyLE ms2 := by
  have hp1 := stableSort_perm matchKeyLE ms1
  have hp2 := stableSort_perm matchKeyLE ms2
  have hps : List.Perm (stableSort matchKeyLE ms1) (stableSort matchKeyLE ms2) :=
    hp1.trans (hperm.trans hp2.symm)
  have hsym : ∀ {x y : PMatch},
      ¬ (x.imageStart = y.imageStart ∧ x.imageEnd = y.imageEnd) →
      ¬ (y.imageStart = x.imageStart ∧ y.imageEnd = x.imageEnd) :=
    fun h hc => h ⟨hc.1.symm, hc.2.symm⟩
  have hd1 := (hp1.pairwise_iff hsym).mpr hdist
  have hd2 := (hp2.pairwise_iff hsym).mpr ((hperm.pairwise_iff hsym).mp hdist)
  have toLT : ∀ (l : List PMatch),
      l.Pairwise (fun x y => matchKeyLE x y = true) →
      l.Pairwise (fun a b => ¬ (a.imageStart = b.imageStart ∧ a.imageEnd = b.imageEnd)) →
      l.Pairwise matchKeyLT := by
    intro l hle hne
    refine (hle.and hne).imp ?_
    intro a b hab
    obtain ⟨h1, h2⟩ := hab
    simp only [matchKeyLE, Bool.or_eq_true, Bool.and_eq_true, decide_eq_true_eq] at h1
    unfold matchKeyLT
    omega
  have hs1 := toLT _ (stableSort_pairwise matchKeyLE matchKeyLE_total matchKeyLE_trans ms1) hd1
  have hs2 := toLT _ (stableSort_pairwise matchKeyLE matchKeyLE_total matchKeyLE_trans ms2) hd2
  haveI : IsAntisymm PMatch matchKeyLT := ⟨by
    intro a b h1 h2
    exfalso
    unfold matchKeyLT at h1 h2
    omega⟩
  exact List.eq_of_perm_of_sorted hps hs1 hs2

theorem dedupMatches_chain : ∀ (ms : List PMatch) (lastEnd : Nat),
    (∀ m ∈ ms, matchInv m = true) → keptChain lastEnd (dedupMatches ms lastEnd) := by
  intro ms
  induction ms with
  | nil => intro lastEnd _; trivial
  | cons m rest ih =>
    intro lastEnd h
    have hm : matchInv m = true := h m (List.mem_cons_self m rest)
    simp only [matchInv, Bool.and_eq_true, decide_eq_true_eq] at hm
    obtain ⟨⟨hf, hi⟩, hlen⟩ := hm
    have hrest : ∀ m' ∈ rest, matchInv m' = true :=
      fun m' hm' => h m' (List.mem_cons_of_mem _ hm')
    by_cases h1 : m.imageEnd ≤ lastEnd
    · simp only [dedupMatches, if_pos h1]
      exact ih lastEnd hrest
    · by_cases h2 : m.imageStart < lastEnd
      · simp only [dedupMatches, if_neg h1, if_pos h2, keptChain]
        exact ⟨by omega, by omega, by omega, ih m.imageEnd hrest⟩
      · simp only [dedupMatches, if_neg h1, if_neg h2, keptChain]
        exact ⟨by omega, hi, hlen, ih m.imageEnd hrest⟩

theorem dedupMatches_end_le : ∀ (ms : List PMatch) (lastEnd bound : Nat),
    (∀ m ∈ ms, m.imageEnd ≤ bound) →
    ∀ m' ∈ dedupMatches ms lastEnd, m'.imageEnd ≤ bound := by
  intro ms
  induction ms with
  | nil => intro lastEnd bound _ m' hm'; cases hm'
  | cons m rest ih =>
    intro lastEnd bound h m' hm'
    have hm := h m (List.mem_cons_self m rest)
    have hrest : ∀ x ∈ rest, x.imageEnd ≤ bound := fun x hx => h x (List.mem_cons_of_mem _ hx)
    by_cases h1 : m.imageEnd ≤ lastEnd
    · rw [dedupMatches, if_pos h1] at hm'
      exact ih lastEnd bound hrest m' hm'
    · by_cases h2 : m.imageStart < lastEnd
      · rw [dedupMatches, if_neg h1, if_pos h2] at hm'
        rcases List.mem_cons.mp hm' with h3 | h3
        · subst h3; exact hm
        · exact ih m.imageEnd bound hrest m' h3
      · rw [dedupMatches, if_neg h1, if_neg h2] at hm'
        rcases List.mem_cons.mp hm' with h3 | h3
        · subst h3; exact hm
        · exact ih m.imageEnd bound hrest m' h3

theorem keptChain_start_le : ∀ (ds : List PMatch) (low : Nat),
    keptChain low ds → ∀ m ∈ ds, low ≤ m.imageStart := by
  intro ds
  induction ds with
  | nil => intro low _ m hm; cases hm
  | cons a rest ih =>
    intro low h m hm
    obtain ⟨h1, h2, h3, h4⟩ := h
    rcases List.mem_cons.mp hm with h5 | h5
    · subst h5; exact h1
    · have := ih a.imageEnd h4 m h5
      omega

theorem keptChain_mem_inv : ∀ (ds : List PMatch) (low : Nat),
    keptChain low ds → ∀ m ∈ ds,
      m.imageStart < m.imageEnd ∧ m.fileEnd + m.imageStart = m.imageEnd + m.fileStart := by
  intro ds
  induction ds with
  | nil => intro low _ m hm; cases hm
  | cons a rest ih =>
    intro low h m hm
    obtain ⟨h1, h2, h3, h4⟩ := h
    rcases List.mem_cons.mp hm with h5 | h5
    · subst h5; exact ⟨h2, h3⟩
    · exact ih a.imageEnd h4 m h5

theorem keptChain_pairwise : ∀ (ds : List PMatch) (low : Nat),
    keptChain low ds → ds.Pairwise (fun a b => a.imageEnd ≤ b.imageStart) := by
  intro ds
  induction ds with
  | nil => intro low _; exact List.Pairwise.nil
  | cons a rest ih =>
    intro low h
    obtain ⟨h1, h2, h3, h4⟩ := h
    rw [List.pairwise_cons]
    exact ⟨fun m hm => keptChain_start_le rest a.imageEnd h4 m hm, ih a.imageEnd h4⟩

theorem stitchPlan_sum : ∀ (ds : List PMatch) (pos imageSize : Nat),
    pos ≤ imageSize → keptChain pos ds → (∀ m ∈ ds, m.imageEnd ≤ imageSize) →
    planSum (stitchPlan imageSize ds pos) + pos = imageSize := by
  intro ds
  induction ds with
  | nil =>
    intro pos imageSize hpos _ _
    by_cases h : pos < imageSize
    · simp only [stitchPlan, if_pos h, planSum, List.map_cons, List.map_nil, List.sum_cons,
        List.sum_nil]
      omega
    · simp only [stitchPlan, if_neg h, planSum, List.map_nil, List.sum_nil]
      omega
  | cons m rest ih =>
    intro pos imageSize hpos hch hbound
    obtain ⟨hlow, hne, hlen, hchrest⟩ := hch
    have hmend : m.imageEnd ≤ imageSize := hbound m (List.mem_cons_self m rest)
    have hrest : ∀ x ∈ rest, x.imageEnd ≤ imageSize :=
      fun x hx => hbound x (List.mem_cons_of_mem _ hx)
    have hih := ih m.imageEnd imageSize hmend hchrest hrest
    simp only [planSum] at hih ⊢
    by_cases hgap : pos < m.imageStart
    · simp only [stitchPlan, if_pos hgap, List.singleton_append, List.map_cons, List.sum_cons]
      omega
    · simp only [stitchPlan, if_neg hgap, List.nil_append, List.map_cons, List.sum_cons]
      omega

theorem noConsecImage_cons_file (p : String) (s e : Nat) :
    ∀ l : List PlanEntry, noConsecImage (⟨Src.file p, s, e⟩ :: l) = noConsecImage l := by
  intro l
  cases l with
  | nil => rfl
  | cons b rest => simp [noConsecImage, isImageEntry]

theorem stitchPlan_noConsec : ∀ (ds : List PMatch) (pos imageSize : Nat),
    noConsecImage (stitchPlan imageSize ds pos) = true := by
  intro ds
  induction ds with
  | nil =>
    intro pos imageSize
    by_cases h : pos < imageSize
    · simp [stitchPlan, if_pos h, noConsecImage]
    · simp [stitchPlan, if_neg h, noConsecImage]
  | cons m rest ih =>
    intro pos imageSize
    by_cases h : pos < m.imageStart
    · simp only [stitchPlan, if_pos h, List.singleton_append, noConsecImage,
        noConsecImage_cons_file, isImageEntry, Bool.and_false, Bool.not_false, Bool.true_and]
      exact ih m.imageEnd imageSize
    · simp only [stitchPlan, if_neg h, List.nil_append, noConsecImage_cons_file]
      exact ih m.imageEnd imageSize

/-- C2 (amended).  For every match set whose matches satisfy the arithmetic
RawMatch invariants AND end within the image (`image_end ≤ image_size`), the
plan's entry lengths sum to `image_size` and no two consecutive entries both
have source `image`. -/
theorem plan_coverage (ms : List PMatch) (imageSize : Nat)
    (h : ∀ m ∈ ms, matchInv m = true ∧ m.imageEnd ≤ imageSize) :
    planSum (generateReconstructionSequence ms imageSize) = imageSize ∧
    noConsecImage (generateReconstructionSequence ms imageSize) = true := by
  unfold generateReconstructionSequence
  by_cases h0 : ms = []
  · rw [if_pos h0]
    constructor
    · simp [planSum]
    · rfl
  · rw [if_neg h0]
    have hsinv : ∀ m ∈ stableSort matchKeyLE ms, matchInv m = true :=
      fun m hm => (h m ((stableSort_perm matchKeyLE ms).mem_iff.mp hm)).1
    have hsbound : ∀ m ∈ stableSort matchKeyLE ms, m.imageEnd ≤ imageSize :=
      fun m hm => (h m ((stableSort_perm matchKeyLE ms).mem_iff.mp hm)).2
    have hch := dedupMatches_chain _ 0 hsinv
    have hb := dedupMatches_end_le _ 0 imageSize hsbound
    have hsum := stitchPlan_sum _ 0 imageSize (Nat.zero_le _) hch hb
    exact ⟨by omega, stitchPlan_noConsec _ 0 imageSize⟩

/-- C2 counterexample.  A single match satisfying all the RawMatch invariants
of the spec's data model but ending past `image_size` (which the round-up of
C9 makes possible): the plan's lengths sum to 4, not the image size 3. -/
theorem plan_coverage_counterexample :
    matchInv ⟨"f", 0, 4, 0, 4⟩ = true ∧
    planSum (generateReconstructionSequence [⟨"f", 0, 4, 0, 4⟩] 3) ≠ 3 := by decide

/-- Witness for C2 at a single in-bounds match. -/
theorem plan_coverage_witness :
    (∀ m ∈ [(⟨"f", 0, 2, 1, 3⟩ : PMatch)], matchInv m = true ∧ m.imageEnd ≤ 5) ∧
    planSum (generateReconstructionSequence [⟨"f", 0, 2, 1, 3⟩] 5) = 5 ∧
    noConsecImage (generateReconstructionSequence [⟨"f", 0, 2, 1, 3⟩] 5) = true :=
  ⟨by decide, plan_coverage [⟨"f", 0, 2, 1, 3⟩] 5 (by decide)⟩

/-- C3.  After sorting by (image start ascending, image end descending) and
sweeping with discard (`image_end ≤ last_end`) and symmetric front-trim
(`image_start < last_end`), every kept match still satisfies
`file_end − file_start = image_end − image_start` (stated additively), and the
kept matches' image ranges are pairwise disjoint with strictly increasing
image starts. -/
theorem planner_sweep_trim (ms : List PMatch) (h : ∀ m ∈ ms, matchInv m = true) :
    (∀ m ∈ dedupMatches (stableSort matchKeyLE ms) 0,
        m.fileEnd + m.imageStart = m.imageEnd + m.fileStart) ∧
    (dedupMatches (stableSort matchKeyLE ms) 0).Pairwise
      (fun a b => a.imageEnd ≤ b.imageStart) ∧
    (dedupMatches (stableSort matchKeyLE ms) 0).Pairwise
      (fun a b => a.imageStart < b.imageStart) := by
  have hs : ∀ m ∈ stableSort matchKeyLE ms, matchInv m = true :=
    fun m hm => h m ((stableSort_perm matchKeyLE ms).mem_iff.mp hm)
  have hch := dedupMatches_chain _ 0 hs
  refine ⟨fun m hm => (keptChain_mem_inv _ 0 hch m hm).2, keptChain_pairwise _ 0 hch, ?_⟩
  refine List.Pairwise.imp_of_mem ?_ (keptChain_pairwise _ 0 hch)
  intro a b ha hb hab
  have := (keptChain_mem_inv _ 0 hch a ha).1
  omega

/-- Witness for C3 on two overlapping matches. -/
theorem planner_sweep_trim_witness :
    (∀ m ∈ [(⟨"f", 0, 2, 1, 3⟩ : PMatch), ⟨"g", 0, 2, 2, 4⟩], matchInv m = true) ∧
    (dedupMatches (stableSort matchKeyLE [(⟨"f", 0, 2, 1, 3⟩ : PMatch), ⟨"g", 0, 2, 2, 4⟩]) 0).Pairwise
      (fun a b => a.imageEnd ≤ b.imageStart) :=
  ⟨by decide, (planner_sweep_trim [⟨"f", 0, 2, 1, 3⟩, ⟨"g", 0, 2, 2, 4⟩] (by decide)).2.1⟩

/-- C8 (amended).  The plan depends only on the set of matches — invariant
under permutation of the match list — PROVIDED no two distinct matches share
the same image range; Python's stable sort otherwise preserves arrival order
among key-equal matches and the sweep keeps whichever comes first. -/
theorem planner_order_independence (ms1 ms2 : List PMatch) (imageSize : Nat)
    (hperm : List.Perm ms1 ms2)
    (hdist : ms1.Pairwise
      (fun a b => ¬ (a.imageStart = b.imageStart ∧ a.imageEnd = b.imageEnd))) :
    generateReconstructionSequence ms1 imageSize = generateReconstructionSequence ms2 imageSize := by
  unfold generateReconstructionSequence
  by_cases h0 : ms1 = []
  · have h2 : ms2 = [] := (h0 ▸ hperm).symm.eq_nil
    rw [if_pos h0, if_pos h2]
  · have h2 : ms2 ≠ [] := fun hh => h0 ((hh ▸ hperm).eq_nil)
    rw [if_neg h0, if_neg h2, stableSort_eq_of_perm ms1 ms2 hperm hdist]

/-- C8 counterexample.  Two distinct matches covering the same image range:
the two arrival orders are permutations of each other, yet the plans differ
(the stable sort keeps arrival order on equal keys and the sweep keeps the
first). -/
theorem planner_order_dependent :
    List.Perm [(⟨"a", 0, 10, 0, 10⟩ : PMatch), ⟨"b", 5, 15, 0, 10⟩]
      [(⟨"b", 5, 15, 0, 10⟩ : PMatch), ⟨"a", 0, 10, 0, 10⟩] ∧
    generateReconstructionSequence [⟨"a", 0, 10, 0, 10⟩, ⟨"b", 5, 15, 0, 10⟩] 10 ≠
      generateReconstructionSequence [⟨"b", 5, 15, 0, 10⟩, ⟨"a", 0, 10, 0, 10⟩] 10 :=
  ⟨List.Perm.swap (⟨"b", 5, 15, 0, 10⟩ : PMatch) ⟨"a", 0, 10, 0, 10⟩ [], by decide⟩

/-- Witness for C8 on two matches with distinct image ranges. -/
theorem planner_order_independence_witness :
    List.Perm [(⟨"a", 0, 10, 0, 10⟩ : PMatch), ⟨"b", 0, 10, 20, 30⟩]
      [(⟨"b", 0, 10, 20, 30⟩ : PMatch), ⟨"a", 0, 10, 0, 10⟩] ∧
    generateReconstructionSequence [⟨"a", 0, 10, 0, 10⟩, ⟨"b", 0, 10, 20, 30⟩] 40 =
      generateReconstructionSequence [⟨"b", 0, 10, 20, 30⟩, ⟨"a", 0, 10, 0, 10⟩] 40 :=
  ⟨List.Perm.swap (⟨"b", 0, 10, 20, 30⟩ : PMatch) ⟨"a", 0, 10, 0, 10⟩ [],
   planner_order_independence _ _ 40
     (List.Perm.swap (⟨"b", 0, 10, 20, 30⟩ : PMatch) ⟨"a", 0, 10, 0, 10⟩ []) (by decide)⟩

/-! ## Extent matcher (ImageProcessor, src/image_rebuilder.py:285-522) -/

/-- One raw match emitted by `process_file` for a single input file, in byte
offsets (the constant file path is omitted). -/
structure RawMatch where
  fileStart : Nat
  fileEnd : Nat
  imageStart : Nat
  imageEnd : Nat
  deriving DecidableEq

/-- The read loop of `_generate_hashes_for_file`: split a byte stream into
consecutive blocks of `bs` bytes (last block possibly shorter); an empty read
(`bs = 0` or end of data) stops the loop.  The fuel `data.length` bounds the
iteration count since every emitted block consumes at least one byte. -/
def chunkBlocksF : Nat → Nat → List Nat → List (List Nat)
  | 0, _, _ => []
  | fuel + 1, bs, l =>
    if l.take bs = [] then [] else l.take bs :: chunkBlocksF fuel bs (l.drop bs)

/-- `_generate_hashes_for_file`: one hash value per block. -/
def blockHashes (hash : List Nat → Nat) (bs : Nat) (data : List Nat) : List Nat :=
  (chunkBlocksF data.length bs data).map hash

/-- Length of the longest common prefix of two byte streams: what the 64 KiB
chunked compare loop of `_extend_match_forward_at_offset` computes as
`bytes_matched` (both sides are read in lockstep, stopping at the first
differing byte or when either side ends, and `max_bytes` equals the shorter
remaining length, so it never caps the count below this value). -/
def commonPrefixLen : List Nat → List Nat → Nat
  | x :: xs, y :: ys => if x = y then commonPrefixLen xs ys + 1 else 0
  | _, _ => 0

/-- `_extend_match_forward_at_offset` (src/image_rebuilder.py:364-443): check
there are bytes to compare, count the matching bytes, round the end offsets UP
to whole blocks on both sides, and require at least `minBlocks` blocks. -/
def extendMatchForwardAtOffset (file image : List Nat) (bs fsb isb minBlocks : Nat) :
    Option (Nat × Nat) :=
  let fileOffset := fsb * bs
  let imageOffset := isb * bs
  if file.length ≤ fileOffset ∨ image.length ≤ imageOffset then none
  else
    let bytesMatched := commonPrefixLen (file.drop fileOffset) (image.drop imageOffset)
    let fileEndBlock := (fileOffset + bytesMatched + bs - 1) / bs
    let imageEndBlock := (imageOffset + bytesMatched + bs - 1) / bs
    if minBlocks ≤ fileEndBlock - fsb then some (fileEndBlock, imageEndBlock) else none

/-- The candidate scan of `_find_extent_in_image`: try image block positions
`i, i+1, …` (`count` many); on a hash-window match byte-verify and extend,
and on verification failure continue with the next position. -/
def searchImageAux (file image : List Nat) (bs m fsb : Nat) (extent imageHashes : List Nat) :
    Nat → Nat → Option (Nat × Nat × Nat × Nat)
  | _, 0 => none
  | i, count + 1 =>
    if (imageHashes.drop i).take m = extent then
      match extendMatchForwardAtOffset file image bs fsb i m with
      | some (feb, ieb) => some (fsb, feb, i, ieb)
      | none => searchImageAux file image bs m fsb extent imageHashes (i + 1) count
    else searchImageAux file image bs m fsb extent imageHashes (i + 1) count

/-- `_find_extent_in_image` (src/image_rebuilder.py:316-362): refuse when
fewer than `m` file blocks remain, else scan all `len(image_hashes) - m + 1`
candidate image positions from 0. -/
def findExtentInImage (file image : List Nat) (bs m : Nat) (fileHashes imageHashes : List Nat)
    (fsb : Nat) : Option (Nat × Nat × Nat × Nat) :=
  if fileHashes.length < fsb + m then none
  else searchImageAux file image bs m fsb ((fileHashes.drop fsb).take m) imageHashes 0
    (imageHashes.length + 1 - m)

/-- The scan loop of `process_file` (src/image_rebuilder.py:483-519): find the
next extent from the current file block, emit it in byte offsets and continue
after it, else skip `m` blocks.  The fuel bounds the iteration count: each
iteration advances the current block by at least one, since matches span at
least `m ≥ 1` blocks. -/
def processLoopF (file image : List Nat) (bs m : Nat) (fileHashes imageHashes : List Nat) :
    Nat → Nat → List RawMatch
  | 0, _ => []
  | fuel + 1, current =>
    if current < fileHashes.length then
      match findExtentInImage file image bs m fileHashes imageHashes current with
      | some r =>
        ⟨r.1 * bs, r.2.1 * bs, r.2.2.1 * bs, r.2.2.2 * bs⟩ ::
          processLoopF file image bs m fileHashes imageHashes fuel r.2.1
      | none => processLoopF file image bs m fileHashes imageHashes fuel (current + m)
    else []

/-- `process_file` on one input file: hash both streams, then scan with
`min_extent_blocks = max(1, min_extent_size // block_size)` from block 0. -/
def processFileMatches (hash : List Nat → Nat) (bs minExtentSize : Nat)
    (file image : List Nat) : List RawMatch :=
  let m := max 1 (minExtentSize / bs)
  let fileHashes := blockHashes hash bs file
  let imageHashes := blockHashes hash bs image
  processLoopF file image bs m fileHashes imageHashes fileHashes.length 0

/-- A hash function mapping every block to 0: exhibits hash collisions. -/
def constHash : List Nat → Nat := fun _ => 0

/-- A hash function returning the block's first byte: collision-free on the
one-byte blocks of the concrete runs below. -/
def headHash : List Nat → Nat := fun l => l.headD 0

/-- Byte range `[s, e)` of a stream. -/
def bytesRange (l : List Nat) (s e : Nat) : List Nat := (l.drop s).take (e - s)

theorem commonPrefixLen_take : ∀ a b : List Nat,
    a.take (commonPrefixLen a b) = b.take (commonPrefixLen a b) := by
  intro a
  induction a with
  | nil => intro b; cases b <;> rfl
  | cons x xs ih =>
    intro b
    cases b with
    | nil => rfl
    | cons y ys =>
      by_cases h : x = y
      · subst h
        simp only [commonPrefixLen, eq_self_iff_true, if_true, List.take_succ_cons, ih ys]
      · simp [commonPrefixLen, if_neg h]

theorem le_ceil_mul {bs : Nat} (hbs : 0 < bs) (x : Nat) : x ≤ ((x + bs - 1) / bs) * bs := by
  have h1 := Nat.div_add_mod (x + bs - 1) bs
  have h2 := Nat.mod_lt (x + bs - 1) hbs
  rw [Nat.mul_comm] at h1
  omega

theorem extendMatch_spec {file image : List Nat} {bs fsb isb minBlocks feb ieb : Nat}
    (hbs : 0 < bs) (hm : 1 ≤ minBlocks)
    (h : extendMatchForwardAtOffset file image bs fsb isb minBlocks = some (feb, ieb)) :
    ∃ L, 0 < L ∧
      (file.drop (fsb * bs)).take L = (image.drop (isb * bs)).take L ∧
      feb = fsb + (L + bs - 1) / bs ∧ ieb = isb + (L + bs - 1) / bs ∧
      minBlocks ≤ (L + bs - 1) / bs := by
  simp only [extendMatchForwardAtOffset] at h
  split at h
  · exact absurd h (by simp)
  next hg =>
    split at h
    next hcond =>
      simp only [Option.some.injEq, Prod.mk.injEq] at h
      obtain ⟨h1, h2⟩ := h
      set L := commonPrefixLen (file.drop (fsb * bs)) (image.drop (isb * bs)) with hLdef
      have harith : ∀ k : Nat, (k * bs + L + bs - 1) / bs = k + (L + bs - 1) / bs := by
        intro k
        rw [show k * bs + L + bs - 1 = bs * k + (L + bs - 1) by
          rw [Nat.mul_comm]
          omega]
        rw [Nat.mul_add_div hbs]
      rw [harith fsb] at hcond h1
      rw [harith isb] at h2
      have hD : minBlocks ≤ (L + bs - 1) / bs := by omega
      have hLpos : 0 < L := by
        by_contra h0
        have hL0 : L = 0 := by omega
        rw [hL0] at hD
        have : (0 + bs - 1) / bs = 0 := Nat.div_eq_of_lt (by omega)
        omega
      exact ⟨L, hLpos, commonPrefixLen_take _ _, h1.symm, h2.symm, hD⟩
    next => exact absurd h (by simp)

theorem searchImageAux_spec {file image : List Nat} {bs m fsb : Nat}
    {extent imageHashes : List Nat} :
    ∀ (count i : Nat) (r : Nat × Nat × Nat × Nat),
      searchImageAux file image bs m fsb extent imageHashes i count = some r →
      r.1 = fsb ∧
        extendMatchForwardAtOffset file image bs fsb r.2.2.1 m = some (r.2.1, r.2.2.2) := by
  intro count
  induction count with
  | zero =>
    intro i r h
    exact absurd h (by simp [searchImageAux])
  | succ c ih =>
    intro i r h
    simp only [searchImageAux] at h
    split at h
    · split at h
      next feb ieb heq =>
        simp only [Option.some.injEq] at h
        subst h
        exact ⟨rfl, heq⟩
      next => exact ih _ r h
    · exact ih _ r h

theorem findExtentInImage_spec {file image : List Nat} {bs m : Nat}
    {fileHashes imageHashes : List Nat} {fsb : Nat} {r : Nat × Nat × Nat × Nat}
    (h : findExtentInImage file image bs m fileHashes imageHashes fsb = some r) :
    r.1 = fsb ∧
      extendMatchForwardAtOffset file image bs fsb r.2.2.1 m = some (r.2.1, r.2.2.2) := by
  unfold findExtentInImage at h
  split at h
  · exact absurd h (by simp)
  · exact searchImageAux_spec _ _ r h

theorem processLoopF_mem {file image : List Nat} {bs m : Nat}
    {fileHashes imageHashes : List Nat} :
    ∀ (fuel current : Nat) (mt : RawMatch),
      mt ∈ processLoopF file image bs m fileHashes imageHashes fuel current →
      ∃ fsb feb isb ieb,
        mt = ⟨fsb * bs, feb * bs, isb * bs, ieb * bs⟩ ∧
        extendMatchForwardAtOffset file image bs fsb isb m = some (feb, ieb) := by
  intro fuel
  induction fuel with
  | zero =>
    intro current mt h
    exact absurd h (by simp [processLoopF])
  | succ f ih =>
    intro current mt h
    simp only [processLoopF] at h
    split at h
    · split at h
      next r heq =>
        obtain ⟨hfsb, hext⟩ := findExtentInImage_spec heq
        rcases List.mem_cons.mp h with h1 | h1
        · refine ⟨r.1, r.2.1, r.2.2.1, r.2.2.2, h1, ?_⟩
          rw [hfsb]
          exact hext
        · exact ih _ mt h1
      next heq => exact ih _ mt h
    · exact absurd h (by simp)

theorem processLoopF_start_ge {file image : List Nat} {bs m : Nat}
    {fileHashes imageHashes : List Nat} (hbs : 0 < bs) (hm : 1 ≤ m) :
    ∀ (fuel current : Nat) (mt : RawMatch),
      mt ∈ processLoopF file image bs m fileHashes imageHashes fuel current →
      current * bs ≤ mt.fileStart := by
  intro fuel
  induction fuel with
  | zero =>
    intro current mt h
    exact absurd h (by simp [processLoopF])
  | succ f ih =>
    intro current mt h
    simp only [processLoopF] at h
    split at h
    · split at h
      next r heq =>
        obtain ⟨hfsb, hext⟩ := findExtentInImage_spec heq
        obtain ⟨L, hL, -, hfeb, -, hD⟩ := extendMatch_spec hbs hm hext
        rcases List.mem_cons.mp h with h1 | h1
        · subst h1
          show current * bs ≤ r.1 * bs
          rw [hfsb]
        · have h2 := ih _ mt h1
          have h3 : current ≤ r.2.1 := by omega
          exact le_trans (Nat.mul_le_mul_right bs h3) h2
      next heq =>
        have h2 := ih _ mt h
        exact le_trans (Nat.mul_le_mul_right bs (by omega)) h2
    · exact absurd h (by simp)

theorem processLoopF_pairwise {file image : List Nat} {bs m : Nat}
    {fileHashes imageHashes : List Nat} (hbs : 0 < bs) (hm : 1 ≤ m) :
    ∀ (fuel current : Nat),
      (processLoopF file image bs m fileHashes imageHashes fuel current).Pairwise
        (fun a b => a.fileStart < b.fileStart) := by
  intro fuel
  induction fuel with
  | zero =>
    intro current
    simp only [processLoopF]
    exact List.Pairwise.nil
  | succ f ih =>
    intro current
    simp only [processLoopF]
    split
    · split
      next r heq =>
        rw [List.pairwise_cons]
        refine ⟨?_, ih _⟩
        intro mt hmt
        have h1 := processLoopF_start_ge hbs hm f r.2.1 mt hmt
        obtain ⟨hfsb, hext⟩ := findExtentInImage_spec heq
        obtain ⟨L, hL, -, hfeb, -, hD⟩ := extendMatch_spec hbs hm hext
        have h3 : r.1 < r.2.1 := by omega
        show r.1 * bs < mt.fileStart
        calc r.1 * bs < r.2.1 * bs := Nat.mul_lt_mul_of_pos_right h3 hbs
          _ ≤ mt.fileStart := h1
      next => exact ih _
    · exact List.Pairwise.nil

/-- C9.  Every RawMatch appended by `process_file` has file_start, file_end,
image_start and image_end all integer multiples of `block_size` (the loop
emits block indices scaled by `block_size`, with end blocks rounded up); the
second conjunct exhibits a concrete run on a one-byte file with block size 2
whose emitted match has `file_end = 2`, exceeding the file size 1, because the
last matched block is partial. -/
theorem match_block_alignment :
    (∀ (hash : List Nat → Nat) (bs mes : Nat) (file image : List Nat),
      ∀ mt ∈ processFileMatches hash bs mes file image,
        bs ∣ mt.fileStart ∧ bs ∣ mt.fileEnd ∧ bs ∣ mt.imageStart ∧ bs ∣ mt.imageEnd) ∧
    (processFileMatches constHash 2 2 [0] [0, 5] = [⟨0, 2, 0, 2⟩] ∧
      ([0] : List Nat).length < 2) := by
  constructor
  · intro hash bs mes file image mt hmt
    simp only [processFileMatches] at hmt
    obtain ⟨fsb, feb, isb, ieb, heq, -⟩ := processLoopF_mem _ _ mt hmt
    subst heq
    exact ⟨dvd_mul_left bs fsb, dvd_mul_left bs feb, dvd_mul_left bs isb, dvd_mul_left bs ieb⟩
  · exact ⟨by decide, by decide⟩

/-- Witness for C9 at the concrete run of its second conjunct. -/
theorem match_block_alignment_witness :
    (⟨0, 2, 0, 2⟩ : RawMatch) ∈ processFileMatches constHash 2 2 [0] [0, 5] ∧
    (2 ∣ (0 : Nat) ∧ 2 ∣ (2 : Nat) ∧ 2 ∣ (0 : Nat) ∧ 2 ∣ (2 : Nat)) :=
  ⟨by decide, match_block_alignment.1 constHash 2 2 [0] [0, 5] ⟨0, 2, 0, 2⟩ (by decide)⟩

/-- C1 counterexample.  With `block_size = 2`, `min_extent_size = 2` and a
colliding hash, processing file `[0, 1]` against image `[0, 2]` emits the
match `(0, 2, 0, 2)` — the mismatching second byte sits inside the rounded-up
final block — yet the file bytes of `[0, 2)` differ from the image bytes of
`[0, 2)`, so the claimed byte equality over the full emitted ranges fails. -/
theorem match_validity_counterexample :
    processFileMatches constHash 2 2 [0, 1] [0, 2] = [⟨0, 2, 0, 2⟩] ∧
    bytesRange [0, 1] 0 2 ≠ bytesRange [0, 2] 0 2 := by decide

/-- C1 (amended).  For every RawMatch appended by `process_file` there is a
verified length `L ≥ 1` such that the file bytes from `file_start` and the
image bytes from `image_start` agree for exactly the first `L` bytes; the end
offsets are the starts plus `L` rounded up to the next block boundary (so up
to `block_size − 1` trailing bytes are included unverified), both spans have
equal length, and that length is at least `min_extent_size` whenever
`block_size` divides `min_extent_size` (which the CLI enforces). -/
theorem match_validity (hash : List Nat → Nat) (bs mes : Nat) (file image : List Nat)
    (hbs : 0 < bs) (hdvd : bs ∣ mes) :
    ∀ mt ∈ processFileMatches hash bs mes file image,
      ∃ L, 0 < L ∧
        (file.drop mt.fileStart).take L = (image.drop mt.imageStart).take L ∧
        mt.fileStart + L ≤ mt.fileEnd ∧ mt.fileEnd < mt.fileStart + L + bs ∧
        mt.fileEnd - mt.fileStart = mt.imageEnd - mt.imageStart ∧
        mes ≤ mt.imageEnd - mt.imageStart := by
  intro mt hmt
  simp only [processFileMatches] at hmt
  obtain ⟨fsb, feb, isb, ieb, heq, hext⟩ := processLoopF_mem _ _ mt hmt
  have hm1 : 1 ≤ max 1 (mes / bs) := le_max_left 1 _
  obtain ⟨L, hL, htake, hfeb, hieb, hD⟩ := extendMatch_spec hbs hm1 hext
  subst heq
  simp only []
  have hup : L ≤ ((L + bs - 1) / bs) * bs := le_ceil_mul hbs L
  have hdown : ((L + bs - 1) / bs) * bs ≤ L + bs - 1 := Nat.div_mul_le_self _ _
  have hmesle : mes / bs * bs ≤ ((L + bs - 1) / bs) * bs :=
    Nat.mul_le_mul_right bs (le_trans (le_max_right 1 _) hD)
  have hmes : mes / bs * bs = mes := Nat.div_mul_cancel hdvd
  subst hfeb
  subst hieb
  refine ⟨L, hL, htake, ?_, ?_, ?_, ?_⟩
  · rw [Nat.add_mul]
    omega
  · rw [Nat.add_mul]
    omega
  · rw [Nat.add_mul, Nat.add_mul]
    omega
  · rw [Nat.add_mul]
    omega

/-- Witness for C1 on a one-byte file matching a one-byte image. -/
theorem match_validity_witness :
    0 < 1 ∧ (1 : Nat) ∣ 1 ∧
    (⟨0, 1, 0, 1⟩ : RawMatch) ∈ processFileMatches headHash 1 1 [5] [5] ∧
    (∃ L, 0 < L ∧
      (([5] : List Nat).drop 0).take L = (([5] : List Nat).drop 0).take L ∧
      0 + L ≤ 1 ∧ 1 < 0 + L + 1 ∧ 1 - 0 = 1 - 0 ∧ 1 ≤ 1 - 0) :=
  ⟨by decide, by decide, by decide,
   match_validity headHash 1 1 [5] [5] (by decide) (by decide) ⟨0, 1, 0, 1⟩ (by decide)⟩

/-- C7 counterexample.  With block size 1 and min extent 1, processing file
`[1, 0]` against image `[0, 1]` emits matches at image starts 1 then 0: the
matcher rescans the image from position 0 for every file position, so the
emission order is NOT monotonic (non-decreasing) in image_start. -/
theorem image_start_not_monotonic :
    processFileMatches headHash 1 1 [1, 0] [0, 1] = [⟨0, 1, 1, 2⟩, ⟨1, 2, 0, 1⟩] ∧
    ¬ (processFileMatches headHash 1 1 [1, 0] [0, 1]).Pairwise
        (fun a b => a.imageStart ≤ b.imageStart) := by decide

/-- C7 (amended).  Within a single processed file the emitted RawMatch
sequence is strictly increasing in file_start (the file cursor only moves
forward), but NOT monotonic in image_start, since every extent search rescans
the image from position 0. -/
theorem per_file_match_monotonicity (hash : List Nat → Nat) (bs mes : Nat)
    (file image : List Nat) (hbs : 0 < bs) :
    (processFileMatches hash bs mes file image).Pairwise
      (fun a b => a.fileStart < b.fileStart) := by
  simp only [processFileMatches]
  exact processLoopF_pairwise hbs (le_max_left 1 _) _ 0

/-- Witness for C7 at the two-match run of its counterexample. -/
theorem per_file_match_monotonicity_witness :
    0 < 1 ∧
    (processFileMatches headHash 1 1 [1, 0] [0, 1]).Pairwise
      (fun a b => a.fileStart < b.fileStart) :=
  ⟨by decide, per_file_match_monotonicity headHash 1 1 [1, 0] [0, 1] (by decide)⟩

end ImageRebuilder
